import Mathlib

/-
Verification of the task scheduler (package scheduler: task.go, scheduler.go).

Shallow embedding conventions:
* Wall-clock instants are integers counting nanoseconds in a fixed-offset
  local zone (the spec places DST and time-zone manipulation out of scope).
  A civil instant is a record of (year, month, day, nanoseconds-of-day);
  its absolute value is daysFromCivil * nsPerDay + sod, where daysFromCivil
  is the standard Gregorian day-number computation, which also performs the
  day-of-month overflow normalisation that Go time.Date applies.
* The Go field `at` (a time.Time) is read by the code only through
  at.Hour(), at.Minute(), at.Second(); it is embedded as the single integer
  atTime = (3600*h + 60*m + s) * 1e9, the time of day in nanoseconds.
  The Go field `on` is embedded as onDay (`at` and `on` are Lean keywords).
* Go maps days/months (possibly nil) become Option (Int -> Bool).
* The job closure is opaque: an abstract tag.  rand.Int63n(randMax-randMin)
  is an explicit input of next.
* The dispatch loop (scheduler.go Run/addTask/delTask) is a step function on
  a scheduler state; the per-id job-spawn counter runs is ghost
  instrumentation incremented exactly where the code does `go taskRunner`.
-/

namespace scheduler

abbrev nsPerDay : Int := 86400000000000

/-- Gregorian day number of a civil date, days since 1970-01-01.  Mirrors the
normalising calendar arithmetic of the Go time package: an out-of-range
day-of-month overflows into the following months. -/
def daysFromCivil (y m d : Int) : Int :=
  let yAdj := if m ≤ 2 then y - 1 else y
  let era := yAdj / 400
  let yoe := yAdj % 400
  let doy := (153 * (m + (if 2 < m then -3 else 9)) + 2) / 5 + d - 1
  let doe := yoe * 365 + yoe / 4 - yoe / 100 + doy
  era * 146097 + doe - 719468

/-- Absolute nanoseconds of Go time.Date(y, m, d, h, mi, s, 0, local) where
sod = (3600*h + 60*mi + s) * 1e9, in the fixed-offset model zone. -/
def dateNS (y m d sod : Int) : Int :=
  daysFromCivil y m d * nsPerDay + sod

/-- A civil instant: what time.Now() exposes to the scheduler code. -/
structure Instant where
  year : Int
  month : Int
  day : Int
  sod : Int
deriving DecidableEq

def Instant.dayIndex (i : Instant) : Int := daysFromCivil i.year i.month i.day

def Instant.ns (i : Instant) : Int := i.dayIndex * nsPerDay + i.sod

/-- Well-formedness of an instant produced by the clock. -/
def Instant.WF (i : Instant) : Prop :=
  1 ≤ i.month ∧ i.month ≤ 12 ∧ 1 ≤ i.day ∧ 0 ≤ i.sod ∧ i.sod < nsPerDay

instance (i : Instant) : Decidable i.WF := by
  unfold Instant.WF; infer_instance

/-- Go Weekday (Sunday = 0) of an absolute nanosecond value; day 0
(1970-01-01) is a Thursday (= 4). -/
def weekdayOfNs (ns : Int) : Int := (ns / nsPerDay + 4) % 7

/-- task.go: type taskVariant uint8 (once, every, random, daily, weekly,
monthly).  A closed sum; the default: panic branch of next is dead. -/
inductive taskVariant
  | once
  | every
  | random
  | daily
  | weekly
  | monthly
deriving DecidableEq

/-- task.go: type blockingMode uint8. -/
inductive blockingMode
  | nonBlocking
  | blocking
  | globalBlocking
deriving DecidableEq

/-- task.go: struct Task. -/
structure Task where
  id : Nat
  job : Nat
  timer : Option Int
  variant : taskVariant
  duration : Int
  atTime : Int
  days : Option (Int → Bool)
  months : Option (Int → Bool)
  onDay : Int
  times : Int
  randMin : Int
  randMax : Int
  blocking : blockingMode

/-- task.go NewTask: job plus Go zero values, variant once, times -1,
nonBlocking. -/
def NewTask (job : Nat) : Task :=
  { id := 0
    job := job
    timer := none
    variant := .once
    duration := 0
    atTime := 0
    days := none
    months := none
    onDay := 0
    times := -1
    randMin := 0
    randMax := 0
    blocking := .nonBlocking }

/-- Panics a builder or the runtime can raise in the embedded fragment. -/
inductive GoPanic
  | invalidArgument
  | nilPointerDereference
deriving DecidableEq

/-- task.go (*Task).Once. -/
def Task.Once (t : Task) : Task := { t with variant := .once, times := 1 }

/-- task.go (*Task).Every. -/
def Task.Every (t : Task) (duration : Int) : Except GoPanic Task :=
  if duration < 0 then .error .invalidArgument
  else .ok { t with variant := .every, duration := duration }

/-- task.go (*Task).Times. -/
def Task.Times (t : Task) (times : Int) : Except GoPanic Task :=
  if times ≤ 0 then .error .invalidArgument
  else .ok { t with times := times }

/-- task.go (*Task).Forever. -/
def Task.Forever (t : Task) : Task := { t with times := -1 }

/-- task.go (*Task).NonBlocking. -/
def Task.NonBlocking (t : Task) : Task := { t with blocking := .nonBlocking }

/-- task.go (*Task).Blocking. -/
def Task.Blocking (t : Task) : Task := { t with blocking := .blocking }

/-- task.go (*Task).GlobalBlocking. -/
def Task.GlobalBlocking (t : Task) : Task :=
  { t with blocking := .globalBlocking }

/-- The times-counter update at the head of next: decrement when positive. -/
def decTimes (t : Task) : Task :=
  if 0 < t.times then { t with times := t.times - 1 } else t

/-- The weekly branch start value: today at the target time of day, advanced
by one day when not strictly in the future (task.go lines 212-217,
`if !nextRun.After(now)`). -/
def weeklyStart (t : Task) (now : Instant) : Int :=
  let nextRun := now.dayIndex * nsPerDay + t.atTime
  if ¬ now.ns < nextRun then nextRun + nsPerDay else nextRun

/-- The weekly day scan (task.go lines 220-228): up to `fuel` = 7 probes,
stepping one day at a time, for a weekday in the days set. -/
def weeklyScan (d : Int → Bool) : Int → Nat → Option Int
  | _, 0 => none
  | ns, fuel + 1 =>
      if d (weekdayOfNs ns) then some ns
      else weeklyScan d (ns + nsPerDay) fuel

/-- Month rollover `month++; if month > 12 { month = 1; year++ }`. -/
def rollMonth (y m : Int) : Int × Int :=
  if 12 < m + 1 then (y + 1, 1) else (y, m + 1)

/-- The monthly branch start year/month (task.go lines 240-247): advance one
month when the day of month has passed `on`, or equals it with the target
instant already strictly in the past. -/
def monthlyStart (t : Task) (now : Instant) : Int × Int :=
  if t.onDay < now.day ∨
      (now.day = t.onDay ∧
        dateNS now.year now.month t.onDay t.atTime < now.ns) then
    rollMonth now.year now.month
  else
    (now.year, now.month)

/-- The monthly month scan (task.go lines 249-259): up to `fuel` = 12 probes
for a month in the months set, rolling the year at December. -/
def monthlyScan (mo : Int → Bool) : Int → Int → Nat → Option (Int × Int)
  | _, _, 0 => none
  | y, m, fuel + 1 =>
      if mo m then some (y, m)
      else
        let p := rollMonth y m
        monthlyScan mo p.1 p.2 fuel

/-- The switch statement of next (task.go lines 185-269): the delay until the
next run and whether the task is kept.  The task itself is only read here.
`rnd` stands for rand.Int63n(randMax - randMin). -/
def variantNext (t : Task) (now : Instant) (rnd : Int) : Int × Bool :=
  match t.variant with
  | .once => (0, true)
  | .every => (t.duration, true)
  | .random => (t.randMin + rnd, true)
  | .daily =>
      let nextRun := now.dayIndex * nsPerDay + t.atTime
      let nextRun := if nextRun < now.ns then nextRun + nsPerDay else nextRun
      (nextRun - now.ns, true)
  | .weekly =>
      match t.days with
      | none => (0, false)
      | some d =>
          match weeklyScan d (weeklyStart t now) 7 with
          | none => (0, false)
          | some nr => (nr - now.ns, true)
  | .monthly =>
      match t.months with
      | none => (0, false)
      | some mo =>
          if t.onDay ≤ 0 ∨ 31 < t.onDay then (0, false)
          else
            match monthlyScan mo (monthlyStart t now).1
                (monthlyStart t now).2 12 with
            | none => (0, false)
            | some ym => (dateNS ym.1 ym.2 t.onDay t.atTime - now.ns, true)

/-- task.go (*Task).next: early return on an exhausted counter, decrement a
positive counter, then the per-variant switch.  Returns the updated task
(Go mutates it in place), the delay, and the keep flag. -/
def next (t : Task) (now : Instant) (rnd : Int) : Task × Int × Bool :=
  if t.times = 0 then (t, 0, false)
  else
    let t := decTimes t
    (t, variantNext t now rnd)

/-- The per-variant search failing to produce a next occurrence: a nil days
or months map, an out-of-range day of month, or an exhausted scan. -/
def variantScanFails (t : Task) (now : Instant) : Bool :=
  match t.variant with
  | .weekly =>
      match t.days with
      | none => true
      | some d => (weeklyScan d (weeklyStart t now) 7).isNone
  | .monthly =>
      match t.months with
      | none => true
      | some mo =>
          if t.onDay ≤ 0 ∨ 31 < t.onDay then true
          else (monthlyScan mo (monthlyStart t now).1
              (monthlyStart t now).2 12).isNone
  | _ => false

/-- scheduler.go: the state owned by the dispatch loop.  tasks and taskMus
are the two keyed tables (maps embedded as functions); nextID is the atomic
admission counter; runs is ghost instrumentation counting, per id, the
`go s.taskRunner(task)` spawns (one job invocation attempt each). -/
structure SchedState where
  tasks : Nat → Option Task
  taskMus : Nat → Bool
  nextID : Nat
  runs : Nat → Nat

/-- The scheduler state built by New: empty tables, counter at zero. -/
def SchedNew : SchedState :=
  { tasks := fun _ => none
    taskMus := fun _ => false
    nextID := 0
    runs := fun _ => 0 }

abbrev W64 : Nat := 18446744073709551616

/-- scheduler.go Add (lines 48-53): `task.id = s.nextID.Add(1)` on a
uint64 counter, then the admission is enqueued.  Returns the task with its
id assigned; the table insertion itself happens later in the loop. -/
def schedAdd (s : SchedState) (t : Task) : SchedState × Task :=
  let i := (s.nextID + 1) % W64
  ({ s with nextID := i }, { t with id := i })

/-- Ids assigned by a sequence of Add calls, in call order. -/
def assignIds (s : SchedState) (ts : List Task) : SchedState × List Nat :=
  match ts with
  | [] => (s, [])
  | t :: r =>
      let p := schedAdd s t
      let q := assignIds p.1 r
      (q.1, p.2.id :: q.2)

/-- scheduler.go delTask (lines 171-187): stop the timer and remove the
table entry when present, then unconditionally remove the per-task mutex. -/
def delTask (s : SchedState) (id : Nat) : SchedState :=
  let tasks' :=
    match s.tasks id with
    | some _ => fun j => if j = id then none else s.tasks j
    | none => s.tasks
  { s with
    tasks := tasks'
    taskMus := fun j => if j = id then false else s.taskMus j }

/-- scheduler.go addTask (lines 146-169): insert the task and a fresh
per-task mutex, evaluate next, then either arm a timer and store the task
back, or dispose of it via delTask. -/
def addTask (s : SchedState) (t : Task) (now : Instant) (rnd : Int)
    : SchedState :=
  let s1 : SchedState :=
    { s with
      tasks := fun j => if j = t.id then some t else s.tasks j
      taskMus := fun j => if j = t.id then true else s.taskMus j }
  match next t now rnd with
  | (t', d, true) =>
      { s1 with
        tasks := fun j =>
          if j = t'.id then some { t' with timer := some d } else s1.tasks j }
  | (t', _, false) => delTask s1 t'.id

/-- scheduler.go Run, fire branch (lines 70-99): look up the task (warn and
continue when missing), call next, re-arm at key id or dispose at task.id,
and in either case spawn a worker (counted in runs). -/
def fireStep (s : SchedState) (id : Nat) (now : Instant) (rnd : Int)
    : SchedState :=
  match s.tasks id with
  | none => s
  | some task =>
      let s' :=
        match next task now rnd with
        | (t', d, true) =>
            { s with
              tasks := fun j =>
                if j = id then some { t' with timer := some d }
                else s.tasks j }
        | (t', _, false) => delTask s t'.id
      { s' with
        runs := fun j => if j = id then s'.runs j + 1 else s'.runs j }

/-- An event consumed by one iteration of the dispatch loop.  now and rnd
are the environment inputs read while the event is processed.  Admission
events carry a task whose id was already assigned by Add. -/
inductive Event
  | add (t : Task) (now : Instant) (rnd : Int)
  | del (id : Nat)
  | fire (id : Nat) (now : Instant) (rnd : Int)

/-- One iteration of the dispatch loop select (scheduler.go Run). -/
def step (s : SchedState) (e : Event) : SchedState :=
  match e with
  | .add t now rnd => addTask s t now rnd
  | .del id => delTask s id
  | .fire id now rnd => fireStep s id now rnd

/-- The id an event would insert into the table, if any. -/
def eventAddId : Event → Option Nat
  | .add t _ _ => some t.id
  | _ => none

/-- Table entries point back to their keys (Add sets task.id to the key
that addTask then inserts at). -/
def IdInv (s : SchedState) : Prop :=
  ∀ i u, s.tasks i = some u → u.id = i

/-- The per-task mutex table has exactly the keys of the task table. -/
def MusInv (s : SchedState) : Prop :=
  ∀ i, s.taskMus i = (s.tasks i).isSome

/-- Bookkeeping for one tracked id admitted with a bounded counter n: while
present, the task has been spawned n - 1 - times many times and its counter
sits in [0, n-1]; once absent, it was spawned at most n times. -/
def TrackInv (id0 n : Nat) (s : SchedState) : Prop :=
  (∀ u, s.tasks id0 = some u →
    u.id = id0 ∧ 0 ≤ u.times ∧ u.times ≤ (n : Int) - 1 ∧
      (s.runs id0 : Int) = (n : Int) - 1 - u.times)
  ∧ (s.tasks id0 = none → s.runs id0 ≤ n)

/-- Outcome of one worker (scheduler.go taskRunner, lines 189-222).  Lock
acquisition always eventually succeeds and is elided; what is modelled is
the control path.  For a blocking task the code reads s.taskMus[task.id]
into a *sync.Mutex and calls Lock on it; when the id is absent the map
lookup yields nil and Lock dereferences a nil pointer, a runtime panic
raised before the recover handler is deferred (line 212). -/
inductive RunnerResult
  | ranJob
  | nilMutexPanic
deriving DecidableEq

/-- scheduler.go taskRunner: the worker preamble per blocking mode, with the
per-task mutex table as it is observed at lookup time. -/
def taskRunner (taskMus : Nat → Bool) (t : Task) : RunnerResult :=
  match t.blocking with
  | .nonBlocking => .ranJob
  | .blocking =>
      if taskMus t.id then .ranJob else .nilMutexPanic
  | .globalBlocking => .ranJob

/- Concrete inputs used by counterexamples and witnesses. -/

/-- Months set holding all twelve months. -/
def allMonths : Int → Bool := fun _ => true

/-- Days set holding exactly Wednesday (Go Weekday 3). -/
def wedOnly : Int → Bool := fun w => w == 3

/-- 2024-05-15 (a Wednesday) at 00:00:00.0 local. -/
def now0 : Instant := ⟨2024, 5, 15, 0⟩

/-- 2024-05-15 at 01:00:00.0 local. -/
def now1 : Instant := ⟨2024, 5, 15, 3600000000000⟩

/-- A Daily task for 01:00:00, unbounded. -/
def dailyCex : Task :=
  { NewTask 0 with variant := .daily, atTime := 3600000000000 }

/-- A Weekly Wednesday task for 01:00:00, unbounded. -/
def weeklyWed : Task :=
  { NewTask 0 with
      variant := .weekly, days := some wedOnly, atTime := 3600000000000 }

/-- A Monthly task, all months, day 15, 01:00:00, unbounded. -/
def monthlyCex : Task :=
  { NewTask 0 with
      variant := .monthly, months := some allMonths, onDay := 15,
      atTime := 3600000000000 }

/-- A Blocking task with id 1. -/
def blockingCex : Task := { NewTask 0 with id := 1, blocking := .blocking }

/-- A task whose counter is exhausted. -/
def spentTask : Task := { NewTask 0 with times := 0 }

/-- A task admitted with Times(2), id 1. -/
def boundedTask : Task := { NewTask 0 with id := 1, times := 2 }

/-- A default task handed id 1 at admission. -/
def defaultTask : Task := { NewTask 0 with id := 1 }

/- Structure lemmas for next. -/

/-- With an exhausted counter next returns immediately. -/
theorem next_times0 (t : Task) (now : Instant) (rnd : Int)
    (h : t.times = 0) : next t now rnd = (t, 0, false) := by
  unfold next
  rw [if_pos h]

/-- The task returned by next is exactly the counter update. -/
theorem next_fst (t : Task) (now : Instant) (rnd : Int) :
    (next t now rnd).1 = decTimes t := by
  by_cases h : t.times = 0
  · rw [next_times0 t now rnd h]
    show t = decTimes t
    unfold decTimes
    rw [if_neg (by omega)]
  · unfold next
    rw [if_neg h]

/-- The per-variant switch never reads the times counter. -/
theorem variantNext_decTimes (t : Task) (now : Instant) (rnd : Int) :
    variantNext (decTimes t) now rnd = variantNext t now rnd := by
  unfold decTimes
  split
  · obtain ⟨i, j, ti, v, du, a, da, mo, o, tm, rmi, rma, b⟩ := t
    cases v <;> rfl
  · rfl

/-- With a live counter the delay and keep flag come from the switch. -/
theorem next_snd (t : Task) (now : Instant) (rnd : Int) (h : t.times ≠ 0) :
    (next t now rnd).2 = variantNext t now rnd := by
  unfold next
  rw [if_neg h]
  exact variantNext_decTimes t now rnd

/-- Weekday of a day boundary plus an intra-day offset. -/
theorem weekdayOfNs_base (N r : Int) (h0 : 0 ≤ r) (h1 : r < nsPerDay) :
    weekdayOfNs (N * nsPerDay + r) = (N + 4) % 7 := by
  have hdiv : (N * nsPerDay + r) / nsPerDay = N := by
    unfold nsPerDay at *
    omega
  unfold weekdayOfNs
  rw [hdiv]

/-- C9: for every task and every call to next, the only field next may
mutate is times (decremented by exactly one when positive); id, job, timer,
variant, duration, at, days, months, on, randMin, randMax and the blocking
mode are unchanged by the call. -/
theorem c9_next_frame (t : Task) (now : Instant) (rnd : Int) :
    (next t now rnd).1.id = t.id ∧
    (next t now rnd).1.job = t.job ∧
    (next t now rnd).1.timer = t.timer ∧
    (next t now rnd).1.variant = t.variant ∧
    (next t now rnd).1.duration = t.duration ∧
    (next t now rnd).1.atTime = t.atTime ∧
    (next t now rnd).1.days = t.days ∧
    (next t now rnd).1.months = t.months ∧
    (next t now rnd).1.onDay = t.onDay ∧
    (next t now rnd).1.randMin = t.randMin ∧
    (next t now rnd).1.randMax = t.randMax ∧
    (next t now rnd).1.blocking = t.blocking ∧
    (next t now rnd).1.times =
      (if 0 < t.times then t.times - 1 else t.times) := by
  rw [next_fst]
  unfold decTimes
  split <;> simp_all

/-- C5: next returns keep = false exactly on an exhausted counter or a
failed per-variant search; a positive counter is decremented by one and a
-1 counter is left alone (the nil-map and day-of-month guards of the weekly
and monthly branches count as the search failing). -/
theorem c5_times_gate (t : Task) (now : Instant) (rnd : Int) :
    (t.times = 0 → next t now rnd = (t, 0, false)) ∧
    (0 < t.times → (next t now rnd).1.times = t.times - 1) ∧
    (t.times = -1 → (next t now rnd).1.times = -1) ∧
    (t.times ≠ 0 →
      ((next t now rnd).2.2 = true ↔ variantScanFails t now = false)) := by
  refine ⟨fun h => next_times0 t now rnd h, fun h => ?_, fun h => ?_,
    fun h => ?_⟩
  · rw [next_fst]
    unfold decTimes
    rw [if_pos h]
  · rw [next_fst]
    unfold decTimes
    rw [if_neg (by omega)]
    exact h
  · rw [next_snd t now rnd h]
    cases hv : t.variant
    case once => simp [variantNext, variantScanFails, hv]
    case every => simp [variantNext, variantScanFails, hv]
    case random => simp [variantNext, variantScanFails, hv]
    case daily => simp [variantNext, variantScanFails, hv]
    case weekly =>
      cases hd : t.days
      · simp [variantNext, variantScanFails, hv, hd]
      · rename_i d
        cases hs : weeklyScan d (weeklyStart t now) 7 <;>
          simp [variantNext, variantScanFails, hv, hd, hs]
    case monthly =>
      cases hm : t.months
      · simp [variantNext, variantScanFails, hv, hm]
      · rename_i mo
        by_cases ho : t.onDay ≤ 0 ∨ 31 < t.onDay
        · simp [variantNext, variantScanFails, hv, hm, ho]
        · cases hs : monthlyScan mo (monthlyStart t now).1
              (monthlyStart t now).2 12 <;>
            simp [variantNext, variantScanFails, hv, hm, ho, hs]

/-- Witness for C5 at a concrete exhausted task. -/
theorem c5_times_gate_witness : next spentTask now0 0 = (spentTask, 0, false) :=
  (c5_times_gate spentTask now0 0).1 rfl

/-- C2 (amended): for a Daily task with a live counter, when at is strictly
later than the time of day of now the delay is at minus that time of day
and keep is true; when at is strictly earlier the delay lands in (0, 24h),
tomorrow at at; when at equals the time of day of now exactly, the strict
Before comparison keeps the fire today and the delay is 0, not positive. -/
theorem c2_daily_delay (t : Task) (now : Instant) (rnd : Int)
    (hv : t.variant = .daily) (ht : t.times ≠ 0)
    (h0 : 0 ≤ t.atTime) (h1 : t.atTime < nsPerDay) (hwf : now.WF) :
    (now.sod < t.atTime →
      (next t now rnd).2 = (t.atTime - now.sod, true)) ∧
    (t.atTime < now.sod →
      (next t now rnd).2 = (t.atTime + nsPerDay - now.sod, true) ∧
      0 < t.atTime + nsPerDay - now.sod ∧
      t.atTime + nsPerDay - now.sod < nsPerDay) ∧
    (t.atTime = now.sod → (next t now rnd).2 = (0, true)) := by
  obtain ⟨hm1, hm2, hd1, hs0, hs1⟩ := hwf
  rw [next_snd t now rnd ht]
  have hns : now.ns = now.dayIndex * nsPerDay + now.sod := rfl
  refine ⟨fun h => ?_, fun h => ?_, fun h => ?_⟩
  · simp only [variantNext, hv]
    rw [hns]
    split_ifs with hc
    · exfalso
      unfold nsPerDay at *
      omega
    · simp only [Prod.mk.injEq]
      exact ⟨by omega, trivial⟩
  · simp only [variantNext, hv]
    rw [hns]
    split_ifs with hc
    · refine ⟨?_, by unfold nsPerDay at *; omega, by unfold nsPerDay at *; omega⟩
      simp only [Prod.mk.injEq]
      exact ⟨by omega, trivial⟩
    · exfalso
      unfold nsPerDay at *
      omega
  · simp only [variantNext, hv]
    rw [hns]
    split_ifs with hc
    · exfalso
      unfold nsPerDay at *
      omega
    · simp only [Prod.mk.injEq]
      exact ⟨by omega, trivial⟩

/-- Counterexample to C2 as stated: a Daily task whose at equals the time
of day of now to the nanosecond gets delay 0, not a strictly positive delay
aligning to tomorrow. -/
theorem c2_daily_cex :
    dailyCex.atTime ≤ now1.sod ∧ dailyCex.times ≠ 0 ∧
    (next dailyCex now1 0).2 = (0, true) ∧
    ¬ 0 < (next dailyCex now1 0).2.1 := by
  refine ⟨by decide, by decide, ?_, ?_⟩ <;> decide

/-- Witness for C2 (amended) at 00:00:00 with at = 01:00:00. -/
theorem c2_daily_delay_witness :
    (next dailyCex now0 0).2 = (3600000000000, true) := by
  have h := (c2_daily_delay dailyCex now0 0 rfl (by decide) (by decide)
    (by decide) (by decide)).1 (by decide)
  exact h.trans (by decide)

/-- One unfolding of the weekly scan at fuel 7. -/
theorem weeklyScanSucc7 (d : Int → Bool) (ns : Int) :
    weeklyScan d ns 7 =
      if d (weekdayOfNs ns) then some ns
      else weeklyScan d (ns + nsPerDay) 6 := rfl

/-- One unfolding of the weekly scan at fuel 6. -/
theorem weeklyScanSucc6 (d : Int → Bool) (ns : Int) :
    weeklyScan d ns 6 =
      if d (weekdayOfNs ns) then some ns
      else weeklyScan d (ns + nsPerDay) 5 := rfl

/-- One unfolding of the weekly scan at fuel 5. -/
theorem weeklyScanSucc5 (d : Int → Bool) (ns : Int) :
    weeklyScan d ns 5 =
      if d (weekdayOfNs ns) then some ns
      else weeklyScan d (ns + nsPerDay) 4 := rfl

/-- One unfolding of the weekly scan at fuel 4. -/
theorem weeklyScanSucc4 (d : Int → Bool) (ns : Int) :
    weeklyScan d ns 4 =
      if d (weekdayOfNs ns) then some ns
      else weeklyScan d (ns + nsPerDay) 3 := rfl

/-- One unfolding of the weekly scan at fuel 3. -/
theorem weeklyScanSucc3 (d : Int → Bool) (ns : Int) :
    weeklyScan d ns 3 =
      if d (weekdayOfNs ns) then some ns
      else weeklyScan d (ns + nsPerDay) 2 := rfl

/-- One unfolding of the weekly scan at fuel 2. -/
theorem weeklyScanSucc2 (d : Int → Bool) (ns : Int) :
    weeklyScan d ns 2 =
      if d (weekdayOfNs ns) then some ns
      else weeklyScan d (ns + nsPerDay) 1 := rfl

/-- One unfolding of the weekly scan at fuel 1. -/
theorem weeklyScanSucc1 (d : Int → Bool) (ns : Int) :
    weeklyScan d ns 1 =
      if d (weekdayOfNs ns) then some ns
      else weeklyScan d (ns + nsPerDay) 0 := rfl

/-- C4: for a Weekly task with a live counter whose days set is exactly the
weekday of now: if at is strictly later today the task fires today at at;
if today-at-at equals now to the nanosecond, the non-strict comparison
advances past it and the task fires exactly seven days from now. -/
theorem c4_weekly_today_or_week (t : Task) (now : Instant) (rnd : Int)
    (hv : t.variant = .weekly) (ht : t.times ≠ 0)
    (h0 : 0 ≤ t.atTime) (h1 : t.atTime < nsPerDay) (hwf : now.WF)
    (dset : Int → Bool) (hdays : t.days = some dset)
    (hD : ∀ w, dset w = true ↔ w = weekdayOfNs now.ns) :
    (now.sod < t.atTime →
      (next t now rnd).2 = (t.atTime - now.sod, true)) ∧
    (t.atTime = now.sod →
      (next t now rnd).2 = (7 * nsPerDay, true)) := by
  obtain ⟨hm1, hm2, hd1, hs0, hs1⟩ := hwf
  rw [next_snd t now rnd ht]
  have hns : now.ns = now.dayIndex * nsPerDay + now.sod := rfl
  have hWnow : weekdayOfNs now.ns = (now.dayIndex + 4) % 7 := by
    rw [hns]
    exact weekdayOfNs_base _ _ hs0 hs1
  have probe : ∀ j : Int,
      weekdayOfNs (now.dayIndex * nsPerDay + t.atTime + j * nsPerDay)
        = (now.dayIndex + j + 4) % 7 := by
    intro j
    have e : now.dayIndex * nsPerDay + t.atTime + j * nsPerDay
        = (now.dayIndex + j) * nsPerDay + t.atTime := by ring
    rw [e, weekdayOfNs_base _ _ h0 h1]
  have dfalse : ∀ j : Int,
      ¬ (now.dayIndex + j + 4) % 7 = (now.dayIndex + 4) % 7 →
      dset ((now.dayIndex + j + 4) % 7) = false := by
    intro j hj
    cases hb : dset ((now.dayIndex + j + 4) % 7) with
    | false => rfl
    | true => exact absurd ((hD _).mp hb) (by rw [hWnow]; exact hj)
  constructor
  · intro h
    simp only [variantNext, hv, hdays]
    have hstart : weeklyStart t now = now.dayIndex * nsPerDay + t.atTime := by
      simp only [weeklyStart]
      rw [if_neg (not_not_intro (by rw [hns]; unfold nsPerDay at *; omega))]
    have hd0 : dset (weekdayOfNs (now.dayIndex * nsPerDay + t.atTime))
        = true := by
      apply (hD _).mpr
      rw [weekdayOfNs_base _ _ h0 h1, hWnow]
    have hscan : weeklyScan dset (now.dayIndex * nsPerDay + t.atTime) 7
        = some (now.dayIndex * nsPerDay + t.atTime) := by
      rw [weeklyScanSucc7, if_pos hd0]
    rw [hstart, hscan]
    show (now.dayIndex * nsPerDay + t.atTime - now.ns, true)
      = (t.atTime - now.sod, true)
    rw [hns]
    simp only [Prod.mk.injEq]
    exact ⟨by ring_nf, trivial⟩
  · intro heq
    simp only [variantNext, hv, hdays]
    have hstart : weeklyStart t now
        = now.dayIndex * nsPerDay + t.atTime + nsPerDay := by
      simp only [weeklyStart]
      rw [if_pos (by rw [hns, heq]; omega)]
    have q1 : dset (weekdayOfNs
        (now.dayIndex * nsPerDay + t.atTime + nsPerDay)) = false := by
      have e : now.dayIndex * nsPerDay + t.atTime + nsPerDay
          = now.dayIndex * nsPerDay + t.atTime + 1 * nsPerDay := by ring
      rw [e, probe 1]
      exact dfalse 1 (by omega)
    have q2 : dset (weekdayOfNs
        (now.dayIndex * nsPerDay + t.atTime + nsPerDay + nsPerDay))
        = false := by
      have e : now.dayIndex * nsPerDay + t.atTime + nsPerDay + nsPerDay
          = now.dayIndex * nsPerDay + t.atTime + 2 * nsPerDay := by ring
      rw [e, probe 2]
      exact dfalse 2 (by omega)
    have q3 : dset (weekdayOfNs
        (now.dayIndex * nsPerDay + t.atTime + nsPerDay + nsPerDay
          + nsPerDay)) = false := by
      have e : now.dayIndex * nsPerDay + t.atTime + nsPerDay + nsPerDay
            + nsPerDay
          = now.dayIndex * nsPerDay + t.atTime + 3 * nsPerDay := by ring
      rw [e, probe 3]
      exact dfalse 3 (by omega)
    have q4 : dset (weekdayOfNs
        (now.dayIndex * nsPerDay + t.atTime + nsPerDay + nsPerDay
          + nsPerDay + nsPerDay)) = false := by
      have e : now.dayIndex * nsPerDay + t.atTime + nsPerDay + nsPerDay
            + nsPerDay + nsPerDay
          = now.dayIndex * nsPerDay + t.atTime + 4 * nsPerDay := by ring
      rw [e, probe 4]
      exact dfalse 4 (by omega)
    have q5 : dset (weekdayOfNs
        (now.dayIndex * nsPerDay + t.atTime + nsPerDay + nsPerDay
          + nsPerDay + nsPerDay + nsPerDay)) = false := by
      have e : now.dayIndex * nsPerDay + t.atTime + nsPerDay + nsPerDay
            + nsPerDay + nsPerDay + nsPerDay
          = now.dayIndex * nsPerDay + t.atTime + 5 * nsPerDay := by ring
      rw [e, probe 5]
      exact dfalse 5 (by omega)
    have q6 : dset (weekdayOfNs
        (now.dayIndex * nsPerDay + t.atTime + nsPerDay + nsPerDay
          + nsPerDay + nsPerDay + nsPerDay + nsPerDay)) = false := by
      have e : now.dayIndex * nsPerDay + t.atTime + nsPerDay + nsPerDay
            + nsPerDay + nsPerDay + nsPerDay + nsPerDay
          = now.dayIndex * nsPerDay + t.atTime + 6 * nsPerDay := by ring
      rw [e, probe 6]
      exact dfalse 6 (by omega)
    have q7 : dset (weekdayOfNs
        (now.dayIndex * nsPerDay + t.atTime + nsPerDay + nsPerDay
          + nsPerDay + nsPerDay + nsPerDay + nsPerDay + nsPerDay))
        = true := by
      have e : now.dayIndex * nsPerDay + t.atTime + nsPerDay + nsPerDay
            + nsPerDay + nsPerDay + nsPerDay + nsPerDay + nsPerDay
          = now.dayIndex * nsPerDay + t.atTime + 7 * nsPerDay := by ring
      rw [e, probe 7]
      apply (hD _).mpr
      rw [hWnow]
      omega
    have hscan : weeklyScan dset
        (now.dayIndex * nsPerDay + t.atTime + nsPerDay) 7
        = some (now.dayIndex * nsPerDay + t.atTime + nsPerDay + nsPerDay
            + nsPerDay + nsPerDay + nsPerDay + nsPerDay + nsPerDay) := by
      rw [weeklyScanSucc7, if_neg (by simp [q1]),
        weeklyScanSucc6, if_neg (by simp [q2]),
        weeklyScanSucc5, if_neg (by simp [q3]),
        weeklyScanSucc4, if_neg (by simp [q4]),
        weeklyScanSucc3, if_neg (by simp [q5]),
        weeklyScanSucc2, if_neg (by simp [q6]),
        weeklyScanSucc1, if_pos q7]
    rw [hstart, hscan]
    show (now.dayIndex * nsPerDay + t.atTime + nsPerDay + nsPerDay
        + nsPerDay + nsPerDay + nsPerDay + nsPerDay + nsPerDay
        - now.ns, true) = (7 * nsPerDay, true)
    rw [hns, heq]
    simp only [Prod.mk.injEq]
    exact ⟨by ring_nf, trivial⟩

/-- Witness for C4 on a Wednesday at 00:00:00 with a Wednesday-only set
and at = 01:00:00: fires today with delay one hour. -/
theorem c4_weekly_today_or_week_witness :
    (next weeklyWed now0 0).2 = (3600000000000, true) := by
  have hD : ∀ w, wedOnly w = true ↔ w = weekdayOfNs now0.ns := by
    intro w
    rw [show weekdayOfNs now0.ns = 3 from by decide]
    simp [wedOnly]
  have h := (c4_weekly_today_or_week weeklyWed now0 0 rfl (by decide)
    (by decide) (by decide) (by decide) wedOnly rfl hD).1 (by decide)
  exact h.trans (by decide)

/-- One unfolding of the monthly scan at fuel 12. -/
theorem monthlyScanSucc12 (mo : Int → Bool) (y m : Int) :
    monthlyScan mo y m 12 =
      if mo m then some (y, m)
      else monthlyScan mo (rollMonth y m).1 (rollMonth y m).2 11 := rfl

/-- C3 (amended): for a Monthly task with a live counter whose months set
holds all twelve months, keep is always true, and the slot is the current
month when the day of month is still before `on`, or equals `on` with the
target instant not yet strictly passed; it is the next month (rolling the
year) when the day of month is past `on`, or equals `on` with the target
instant strictly passed. -/
theorem c3_monthly_slot (t : Task) (now : Instant) (rnd : Int)
    (hv : t.variant = .monthly) (ht : t.times ≠ 0)
    (mo : Int → Bool) (hmonths : t.months = some mo)
    (hall : ∀ m, 1 ≤ m → m ≤ 12 → mo m = true)
    (hon : 1 ≤ t.onDay ∧ t.onDay ≤ 31) (hwf : now.WF) :
    ((next t now rnd).2.2 = true) ∧
    (now.day < t.onDay →
      (next t now rnd).2.1
        = dateNS now.year now.month t.onDay t.atTime - now.ns) ∧
    (now.day = t.onDay → now.sod ≤ t.atTime →
      (next t now rnd).2.1
        = dateNS now.year now.month t.onDay t.atTime - now.ns) ∧
    (now.day = t.onDay → t.atTime < now.sod →
      (next t now rnd).2.1
        = dateNS (rollMonth now.year now.month).1
            (rollMonth now.year now.month).2 t.onDay t.atTime - now.ns) ∧
    (t.onDay < now.day →
      (next t now rnd).2.1
        = dateNS (rollMonth now.year now.month).1
            (rollMonth now.year now.month).2 t.onDay t.atTime - now.ns) := by
  obtain ⟨hw1, hw2, hw3, hw4, hw5⟩ := hwf
  have hb : 1 ≤ (monthlyStart t now).2 ∧ (monthlyStart t now).2 ≤ 12 := by
    unfold monthlyStart rollMonth
    split
    · split
      · exact ⟨by norm_num, by norm_num⟩
      · rename_i hlt
        exact ⟨by show 1 ≤ now.month + 1; omega,
          by show now.month + 1 ≤ 12; omega⟩
    · exact ⟨by show 1 ≤ now.month; omega, by show now.month ≤ 12; omega⟩
  have hscan : monthlyScan mo (monthlyStart t now).1
      (monthlyStart t now).2 12
      = some ((monthlyStart t now).1, (monthlyStart t now).2) := by
    rw [monthlyScanSucc12, if_pos (hall _ hb.1 hb.2)]
  have hmain : (next t now rnd).2
      = (dateNS (monthlyStart t now).1 (monthlyStart t now).2
          t.onDay t.atTime - now.ns, true) := by
    rw [next_snd t now rnd ht]
    simp only [variantNext, hv, hmonths]
    rw [if_neg (by omega), hscan]
  have hcmp : ∀ he : now.day = t.onDay,
      (dateNS now.year now.month t.onDay t.atTime < now.ns
        ↔ t.atTime < now.sod) := by
    intro he
    have e : now.ns
        = daysFromCivil now.year now.month now.day * nsPerDay + now.sod :=
      rfl
    rw [e, he]
    unfold dateNS nsPerDay
    omega
  refine ⟨by rw [hmain], fun h => ?_, fun he hle => ?_, fun he hlt => ?_,
    fun h => ?_⟩
  · have hstart : monthlyStart t now = (now.year, now.month) := by
      unfold monthlyStart
      rw [if_neg]
      intro hor
      rcases hor with h1 | ⟨h2, h3⟩ <;> omega
    rw [hmain, hstart]
  · have hstart : monthlyStart t now = (now.year, now.month) := by
      unfold monthlyStart
      rw [if_neg]
      intro hor
      rcases hor with h1 | ⟨h2, h3⟩
      · omega
      · have := (hcmp he).mp h3
        omega
    rw [hmain, hstart]
  · have hstart : monthlyStart t now = rollMonth now.year now.month := by
      unfold monthlyStart
      rw [if_pos (Or.inr ⟨he, (hcmp he).mpr hlt⟩)]
    rw [hmain, hstart]
  · have hstart : monthlyStart t now = rollMonth now.year now.month := by
      unfold monthlyStart
      rw [if_pos (Or.inl h)]
    rw [hmain, hstart]

/-- Counterexample to C3 as stated: on the day `on` itself with the target
time not yet passed, the task fires in the current month (delay one hour
here), not in the next month as the unconditional "otherwise next month"
dichotomy requires. -/
theorem c3_monthly_cex :
    now0.day = monthlyCex.onDay ∧ monthlyCex.times ≠ 0 ∧
    (next monthlyCex now0 0).2 = (3600000000000, true) ∧
    (next monthlyCex now0 0).2.1
      = dateNS 2024 5 15 3600000000000 - now0.ns ∧
    ¬ (next monthlyCex now0 0).2.1
      = dateNS 2024 6 15 3600000000000 - now0.ns := by
  refine ⟨by decide, by decide, by decide, by decide, by decide⟩

/-- Witness for C3 (amended) on 2024-05-15 00:00, on = 15, at 01:00:
keep is true and the fire stays in May. -/
theorem c3_monthly_slot_witness :
    (next monthlyCex now0 0).2.2 = true ∧
    (next monthlyCex now0 0).2.1 = 3600000000000 := by
  have h := c3_monthly_slot monthlyCex now0 0 rfl (by decide) allMonths rfl
    (fun _ _ _ => rfl) (by decide) (by decide)
  exact ⟨h.1, (h.2.2.1 rfl (by decide)).trans (by decide)⟩

attribute [ext] SchedState

/-- next preserves the id field. -/
theorem next_id (t : Task) (now : Instant) (rnd : Int) :
    (next t now rnd).1.id = t.id := by
  rw [next_fst]
  unfold decTimes
  split <;> rfl

/-- next never increases the times field. -/
theorem next_times_le (t : Task) (now : Instant) (rnd : Int) :
    (next t now rnd).1.times ≤ t.times := by
  rw [next_fst]
  unfold decTimes
  split
  · show t.times - 1 ≤ t.times
    omega
  · omega

/-- Pointwise task table of delTask. -/
theorem delTask_tasks (s : SchedState) (i j : Nat) :
    (delTask s i).tasks j = if j = i then none else s.tasks j := by
  unfold delTask
  cases h : s.tasks i with
  | none =>
      show s.tasks j = _
      by_cases hj : j = i
      · rw [if_pos hj, hj, h]
      · rw [if_neg hj]
  | some u => rfl

/-- Pointwise mutex table of delTask. -/
theorem delTask_taskMus (s : SchedState) (i j : Nat) :
    (delTask s i).taskMus j = if j = i then false else s.taskMus j := by
  unfold delTask
  cases h : s.tasks i <;> rfl

/-- delTask does not touch the spawn counters. -/
theorem delTask_runs (s : SchedState) (i : Nat) :
    (delTask s i).runs = s.runs := by
  unfold delTask
  cases h : s.tasks i <;> rfl

/-- delTask does not touch the id counter. -/
theorem delTask_nextID (s : SchedState) (i : Nat) :
    (delTask s i).nextID = s.nextID := by
  unfold delTask
  cases h : s.tasks i <;> rfl

/-- addTask leaves foreign table entries alone. -/
theorem addTask_tasks_ne (s : SchedState) (t : Task) (now : Instant)
    (rnd : Int) (j : Nat) (hj : j ≠ t.id) :
    (addTask s t now rnd).tasks j = s.tasks j := by
  have hid : (next t now rnd).1.id = t.id := next_id t now rnd
  unfold addTask
  rcases hne : next t now rnd with ⟨t', d, k⟩
  rw [hne] at hid
  cases k
  · rw [delTask_tasks]
    rw [if_neg (by rw [hid]; exact hj)]
    show (if j = t.id then some t else s.tasks j) = s.tasks j
    rw [if_neg hj]
  · show (if j = t'.id then _ else if j = t.id then some t else s.tasks j)
      = s.tasks j
    rw [if_neg (by rw [hid]; exact hj), if_neg hj]

/-- addTask leaves foreign mutex entries alone. -/
theorem addTask_taskMus_ne (s : SchedState) (t : Task) (now : Instant)
    (rnd : Int) (j : Nat) (hj : j ≠ t.id) :
    (addTask s t now rnd).taskMus j = s.taskMus j := by
  have hid : (next t now rnd).1.id = t.id := next_id t now rnd
  unfold addTask
  rcases hne : next t now rnd with ⟨t', d, k⟩
  rw [hne] at hid
  cases k
  · rw [delTask_taskMus]
    rw [if_neg (by rw [hid]; exact hj)]
    show (if j = t.id then true else s.taskMus j) = s.taskMus j
    rw [if_neg hj]
  · show (if j = t.id then true else s.taskMus j) = s.taskMus j
    rw [if_neg hj]

/-- addTask does not touch the spawn counters. -/
theorem addTask_runs (s : SchedState) (t : Task) (now : Instant)
    (rnd : Int) : (addTask s t now rnd).runs = s.runs := by
  unfold addTask
  rcases hne : next t now rnd with ⟨t', d, k⟩
  cases k
  · rw [delTask_runs]
  · rfl

/-- addTask does not touch the id counter. -/
theorem addTask_nextID (s : SchedState) (t : Task) (now : Instant)
    (rnd : Int) : (addTask s t now rnd).nextID = s.nextID := by
  unfold addTask
  rcases hne : next t now rnd with ⟨t', d, k⟩
  cases k
  · rw [delTask_nextID]
  · rfl

/-- The own table entry after addTask: the timer-armed updated task when
next keeps it, and nothing when next disposes of it. -/
theorem addTask_tasks_self (s : SchedState) (t : Task) (now : Instant)
    (rnd : Int) :
    (addTask s t now rnd).tasks t.id
      = (if (next t now rnd).2.2 = true then
          some { (next t now rnd).1 with timer := some (next t now rnd).2.1 }
        else none) := by
  have hid : (next t now rnd).1.id = t.id := next_id t now rnd
  unfold addTask
  rcases hne : next t now rnd with ⟨t', d, k⟩
  rw [hne] at hid
  cases k
  · rw [delTask_tasks, if_pos hid.symm]
    rfl
  · show (if t.id = t'.id then some { t' with timer := some d }
        else if t.id = t.id then some t else s.tasks t.id)
      = _
    rw [if_pos hid.symm]
    rfl

/-- The own mutex entry after addTask: present exactly when next kept the
task (a disposed admission removes the mutex it just created). -/
theorem addTask_taskMus_self (s : SchedState) (t : Task) (now : Instant)
    (rnd : Int) :
    (addTask s t now rnd).taskMus t.id = (next t now rnd).2.2 := by
  have hid : (next t now rnd).1.id = t.id := next_id t now rnd
  unfold addTask
  rcases hne : next t now rnd with ⟨t', d, k⟩
  rw [hne] at hid
  cases k
  · rw [delTask_taskMus, if_pos hid.symm]
  · show (if t.id = t.id then true else s.taskMus t.id) = true
    rw [if_pos rfl]

/-- A fire for an id with no table entry is a no-op. -/
theorem fireStep_none (s : SchedState) (id : Nat) (now : Instant)
    (rnd : Int) (h : s.tasks id = none) : fireStep s id now rnd = s := by
  unfold fireStep
  rw [h]

/-- A fire leaves foreign table entries alone (table keys carry their own
ids, so the dispose path deletes at the fired key). -/
theorem fireStep_tasks_ne (s : SchedState) (id : Nat) (now : Instant)
    (rnd : Int) (j : Nat) (hj : j ≠ id) (hinv : IdInv s) :
    (fireStep s id now rnd).tasks j = s.tasks j := by
  unfold fireStep
  split
  · rfl
  · rename_i u h
    have hu : u.id = id := hinv id u h
    split
    · rename_i t' d hk
      simp only
      rw [if_neg hj]
    · rename_i t' d hk
      have hid : t'.id = id := by
        have hn := next_id u now rnd
        rw [hk] at hn
        rw [← hu]
        exact hn
      simp only
      rw [delTask_tasks, if_neg (by rw [hid]; exact hj)]

/-- A fire leaves foreign mutex entries alone. -/
theorem fireStep_taskMus_ne (s : SchedState) (id : Nat) (now : Instant)
    (rnd : Int) (j : Nat) (hj : j ≠ id) (hinv : IdInv s) :
    (fireStep s id now rnd).taskMus j = s.taskMus j := by
  unfold fireStep
  split
  · rfl
  · rename_i u h
    have hu : u.id = id := hinv id u h
    split
    · rfl
    · rename_i t' d hk
      have hid : t'.id = id := by
        have hn := next_id u now rnd
        rw [hk] at hn
        rw [← hu]
        exact hn
      simp only
      rw [delTask_taskMus, if_neg (by rw [hid]; exact hj)]

/-- A fire leaves foreign spawn counters alone. -/
theorem fireStep_runs_ne (s : SchedState) (id : Nat) (now : Instant)
    (rnd : Int) (j : Nat) (hj : j ≠ id) :
    (fireStep s id now rnd).runs j = s.runs j := by
  unfold fireStep
  split
  · rfl
  · rename_i u h
    split
    · rename_i t' d hk
      simp only
      rw [if_neg hj]
    · rename_i t' d hk
      simp only
      rw [if_neg hj, delTask_runs]

/-- A fire on a present task bumps its spawn counter by one (the worker is
spawned whether or not the task is kept). -/
theorem fireStep_runs_self (s : SchedState) (id : Nat) (now : Instant)
    (rnd : Int) (u : Task) (h : s.tasks id = some u) :
    (fireStep s id now rnd).runs id = s.runs id + 1 := by
  unfold fireStep
  split
  · rename_i hn
    rw [h] at hn
    cases hn
  · rename_i u2 h2
    rw [h] at h2
    cases h2
    split
    · rename_i t' d hk
      simp only
      rw [if_pos trivial]
    · rename_i t' d hk
      simp only
      rw [if_pos trivial, delTask_runs]

/-- delTask keeps the two tables in sync. -/
theorem delTask_MusInv (s : SchedState) (i : Nat) (hs : MusInv s) :
    MusInv (delTask s i) := by
  intro j
  rw [delTask_taskMus, delTask_tasks]
  by_cases hj : j = i
  · rw [if_pos hj, if_pos hj]
    rfl
  · rw [if_neg hj, if_neg hj]
    exact hs j

/-- delTask keeps table keys matching task ids. -/
theorem delTask_IdInv (s : SchedState) (i : Nat) (hinv : IdInv s) :
    IdInv (delTask s i) := by
  intro j u hju
  rw [delTask_tasks] at hju
  by_cases hj : j = i
  · rw [if_pos hj] at hju
    cases hju
  · rw [if_neg hj] at hju
    exact hinv j u hju

/-- The fired table entry afterwards: the timer-armed updated task when
next keeps it, and nothing when next disposes of it. -/
theorem fireStep_tasks_self (s : SchedState) (id : Nat) (now : Instant)
    (rnd : Int) (u : Task) (h : s.tasks id = some u) (hinv : IdInv s) :
    (fireStep s id now rnd).tasks id
      = (if (next u now rnd).2.2 = true then
          some { (next u now rnd).1 with timer := some (next u now rnd).2.1 }
        else none) := by
  have hu : u.id = id := hinv id u h
  unfold fireStep
  split
  · rename_i hn
    rw [h] at hn
    cases hn
  · rename_i u2 h2
    rw [h] at h2
    cases h2
    split
    · rename_i t' d hk
      simp only
      rw [if_pos trivial, hk]
      rfl
    · rename_i t' d hk
      have hid : t'.id = id := by
        have hn := next_id u now rnd
        rw [hk] at hn
        rw [← hu]
        exact hn
      simp only
      rw [delTask_tasks, if_pos hid.symm, hk]
      rfl

/-- addTask keeps the two tables in sync. -/
theorem addTask_MusInv (s : SchedState) (t : Task) (now : Instant)
    (rnd : Int) (hs : MusInv s) : MusInv (addTask s t now rnd) := by
  intro j
  by_cases hj : j = t.id
  · rw [hj, addTask_taskMus_self, addTask_tasks_self]
    cases hk : (next t now rnd).2.2
    · rw [if_neg Bool.false_ne_true]
      rfl
    · rw [if_pos rfl]
      rfl
  · rw [addTask_taskMus_ne s t now rnd j hj, addTask_tasks_ne s t now rnd j hj]
    exact hs j

/-- addTask keeps table keys matching task ids. -/
theorem addTask_IdInv (s : SchedState) (t : Task) (now : Instant)
    (rnd : Int) (hinv : IdInv s) : IdInv (addTask s t now rnd) := by
  intro j u hju
  by_cases hj : j = t.id
  · rw [hj] at hju ⊢
    rw [addTask_tasks_self] at hju
    split at hju
    · cases hju
      show (next t now rnd).1.id = t.id
      exact next_id t now rnd
    · cases hju
  · rw [addTask_tasks_ne s t now rnd j hj] at hju
    exact hinv j u hju

/-- A fire keeps the two tables in sync. -/
theorem fireStep_MusInv (s : SchedState) (id : Nat) (now : Instant)
    (rnd : Int) (hs : MusInv s) : MusInv (fireStep s id now rnd) := by
  unfold fireStep
  split
  · exact hs
  · rename_i u h
    split
    · rename_i t' d hk
      intro j
      simp only
      by_cases hj : j = id
      · rw [if_pos hj, hs j, hj, h]
        rfl
      · rw [if_neg hj]
        exact hs j
    · rename_i t' d hk
      intro j
      simp only
      exact delTask_MusInv s t'.id hs j

/-- A fire keeps table keys matching task ids. -/
theorem fireStep_IdInv (s : SchedState) (id : Nat) (now : Instant)
    (rnd : Int) (hinv : IdInv s) : IdInv (fireStep s id now rnd) := by
  intro j u hju
  by_cases hj : j = id
  · cases h : s.tasks id with
    | none =>
        rw [fireStep_none s id now rnd h] at hju
        exact hinv j u hju
    | some u0 =>
        rw [hj] at hju ⊢
        rw [fireStep_tasks_self s id now rnd u0 h hinv] at hju
        split at hju
        · cases hju
          show (next u0 now rnd).1.id = id
          rw [next_id u0 now rnd]
          exact hinv id u0 h
        · cases hju
  · rw [fireStep_tasks_ne s id now rnd j hj hinv] at hju
    exact hinv j u hju

/-- One loop iteration keeps table keys matching task ids. -/
theorem step_IdInv (s : SchedState) (e : Event) (hinv : IdInv s) :
    IdInv (step s e) := by
  cases e with
  | add t now rnd => exact addTask_IdInv s t now rnd hinv
  | del id => exact delTask_IdInv s id hinv
  | fire id now rnd => exact fireStep_IdInv s id now rnd hinv

/-- C1: the worker of a Blocking task whose per-task mutex entry has been
deleted does not run the job, but it does not return quietly either: the
nil mutex lookup makes Lock dereference a nil pointer and the goroutine
panics before any recover is installed, contradicting the required "task
was deleted, do nothing" behaviour. -/
theorem c1_blocking_missing_mutex (taskMus : Nat → Bool) (t : Task)
    (hb : t.blocking = .blocking) (hm : taskMus t.id = false) :
    taskRunner taskMus t = .nilMutexPanic := by
  simp [taskRunner, hb, hm]

/-- Witness for C1: the concrete Blocking task against an emptied mutex
table panics. -/
theorem c1_blocking_missing_mutex_witness :
    taskRunner (fun _ => false) blockingCex = .nilMutexPanic :=
  c1_blocking_missing_mutex (fun _ => false) blockingCex rfl rfl

/-- Ids assigned by successive Add calls are all above the current counter
and strictly increase in call order (while the uint64 counter does not
saturate). -/
theorem assignIds_gt (s : SchedState) (ts : List Task)
    (h : s.nextID + ts.length < W64) :
    List.Pairwise (· < ·) (assignIds s ts).2 ∧
    ∀ x ∈ (assignIds s ts).2, s.nextID < x := by
  induction ts generalizing s with
  | nil =>
      constructor
      · exact List.Pairwise.nil
      · intro x hx
        exact absurd hx (List.not_mem_nil x)
  | cons t r ih =>
      simp only [List.length_cons] at h
      have hm : (s.nextID + 1) % W64 = s.nextID + 1 := by
        apply Nat.mod_eq_of_lt
        unfold W64 at *
        omega
      have e2 : (assignIds s (t :: r)).2
          = (s.nextID + 1) % W64
            :: (assignIds { s with nextID := (s.nextID + 1) % W64 } r).2 :=
        rfl
      rw [e2, hm]
      have hr := ih { s with nextID := s.nextID + 1 }
        (by show s.nextID + 1 + r.length < W64; unfold W64 at *; omega)
      have hr2 : ∀ x ∈ (assignIds { s with nextID := s.nextID + 1 } r).2,
          s.nextID + 1 < x := hr.2
      constructor
      · apply List.Pairwise.cons
        · intro x hx
          exact hr2 x hx
        · exact hr.1
      · intro x hx
        cases hx with
        | head => omega
        | tail b hx2 =>
            have := hr2 x hx2
            omega

/-- C7: of any two Add calls on one scheduler, the earlier gets the
strictly smaller id, and no id is handed out twice (hypothesis: the uint64
admission counter does not wrap during the call sequence). -/
theorem c7_monotonic_unique_ids (s : SchedState) (ts : List Task)
    (h : s.nextID + ts.length < W64) :
    List.Pairwise (· < ·) (assignIds s ts).2 ∧
    (assignIds s ts).2.Nodup := by
  obtain ⟨hp, _⟩ := assignIds_gt s ts h
  exact ⟨hp, List.Pairwise.imp (fun hlt => Nat.ne_of_lt hlt) hp⟩

/-- Witness for C7 on three admissions from a fresh scheduler. -/
theorem c7_monotonic_unique_ids_witness :
    List.Pairwise (· < ·)
      (assignIds SchedNew [NewTask 0, NewTask 1, NewTask 2]).2 ∧
    (assignIds SchedNew [NewTask 0, NewTask 1, NewTask 2]).2.Nodup :=
  c7_monotonic_unique_ids SchedNew [NewTask 0, NewTask 1, NewTask 2]
    (by decide)

/-- C8: deleting an id absent from the task table is a no-op on both tables
(given the mutex-table sync invariant the loop maintains, third conjunct),
and two consecutive deletions of one id equal a single one. -/
theorem c8_delete_idempotent :
    (∀ s id, MusInv s → s.tasks id = none → delTask s id = s) ∧
    (∀ s id, delTask (delTask s id) id = delTask s id) ∧
    (∀ s e, MusInv s → MusInv (step s e)) := by
  refine ⟨?_, ?_, ?_⟩
  · intro s id hs h
    have h1 : (delTask s id).tasks = s.tasks := by
      funext j
      rw [delTask_tasks]
      by_cases hj : j = id
      · rw [if_pos hj, hj, h]
      · rw [if_neg hj]
    have h2 : (delTask s id).taskMus = s.taskMus := by
      funext j
      rw [delTask_taskMus]
      by_cases hj : j = id
      · rw [if_pos hj, hj, hs id, h]
        rfl
      · rw [if_neg hj]
    exact SchedState.ext h1 h2 (delTask_nextID s id) (delTask_runs s id)
  · intro s id
    have hnone : (delTask s id).tasks id = none := by
      rw [delTask_tasks, if_pos rfl]
    have h1 : (delTask (delTask s id) id).tasks = (delTask s id).tasks := by
      funext j
      rw [delTask_tasks]
      by_cases hj : j = id
      · rw [if_pos hj, hj, hnone]
      · rw [if_neg hj]
    have h2 : (delTask (delTask s id) id).taskMus
        = (delTask s id).taskMus := by
      funext j
      rw [delTask_taskMus]
      by_cases hj : j = id
      · rw [if_pos hj, hj, delTask_taskMus, if_pos rfl]
      · rw [if_neg hj]
    exact SchedState.ext h1 h2 (delTask_nextID _ id) (delTask_runs _ id)
  · intro s e hs
    cases e with
    | add t now rnd => exact addTask_MusInv s t now rnd hs
    | del id => exact delTask_MusInv s id hs
    | fire id now rnd => exact fireStep_MusInv s id now rnd hs

/-- Witness for C8: deleting id 3 from the fresh scheduler state changes
nothing. -/
theorem c8_delete_idempotent_witness : delTask SchedNew 3 = SchedNew :=
  c8_delete_idempotent.1 SchedNew 3 (fun _ => rfl) rfl

/-- One loop iteration that does not admit a task under the tracked id
preserves the tracked-id bookkeeping. -/
theorem step_TrackInv (id0 n : Nat) (s : SchedState) (e : Event)
    (hinv : IdInv s) (ht : TrackInv id0 n s)
    (he : eventAddId e ≠ some id0) :
    TrackInv id0 n (step s e) := by
  cases e with
  | add t now rnd =>
      have hne : t.id ≠ id0 := fun hc => he (by rw [← hc]; rfl)
      show TrackInv id0 n (addTask s t now rnd)
      have e1 : (addTask s t now rnd).tasks id0 = s.tasks id0 :=
        addTask_tasks_ne s t now rnd id0 (Ne.symm hne)
      have e2 : (addTask s t now rnd).runs id0 = s.runs id0 :=
        congrFun (addTask_runs s t now rnd) id0
      constructor
      · intro u hu
        rw [e1] at hu
        rw [e2]
        exact ht.1 u hu
      · intro hu
        rw [e1] at hu
        rw [e2]
        exact ht.2 hu
  | del i =>
      show TrackInv id0 n (delTask s i)
      have e2 : (delTask s i).runs id0 = s.runs id0 :=
        congrFun (delTask_runs s i) id0
      by_cases hi : id0 = i
      · constructor
        · intro u hu
          rw [delTask_tasks, if_pos hi] at hu
          cases hu
        · intro _
          rw [e2]
          cases h : s.tasks id0 with
          | none => exact ht.2 h
          | some u =>
              have hh := ht.1 u h
              omega
      · have e1 : (delTask s i).tasks id0 = s.tasks id0 := by
          rw [delTask_tasks, if_neg hi]
        constructor
        · intro u hu
          rw [e1] at hu
          rw [e2]
          exact ht.1 u hu
        · intro hu
          rw [e1] at hu
          rw [e2]
          exact ht.2 hu
  | fire i now rnd =>
      show TrackInv id0 n (fireStep s i now rnd)
      by_cases hi : i = id0
      · subst hi
        cases h : s.tasks i with
        | none =>
            rw [fireStep_none s i now rnd h]
            exact ht
        | some u =>
            have hh := ht.1 u h
            have e1 := fireStep_tasks_self s i now rnd u h hinv
            have e2 := fireStep_runs_self s i now rnd u h
            constructor
            · intro u' hu'
              rw [e1] at hu'
              split at hu'
              · rename_i hk
                cases hu'
                by_cases h0 : u.times = 0
                · exfalso
                  rw [next_times0 u now rnd h0] at hk
                  cases hk
                · have hpos : 0 < u.times := by
                    have := hh.2.1
                    omega
                  have htimes : (next u now rnd).1.times = u.times - 1 := by
                    rw [next_fst]
                    unfold decTimes
                    rw [if_pos hpos]
                  refine ⟨?_, ?_, ?_, ?_⟩
                  · show (next u now rnd).1.id = i
                    rw [next_id u now rnd]
                    exact hh.1
                  · show 0 ≤ (next u now rnd).1.times
                    rw [htimes]
                    omega
                  · show (next u now rnd).1.times ≤ (n : Int) - 1
                    rw [htimes]
                    have := hh.2.2.1
                    omega
                  · show ((fireStep s i now rnd).runs i : Int)
                      = (n : Int) - 1 - (next u now rnd).1.times
                    rw [e2, htimes]
                    have := hh.2.2.2
                    omega
              · cases hu'
            · intro hu'
              rw [e1] at hu'
              split at hu'
              · cases hu'
              · rw [e2]
                have h1 := hh.2.1
                have h2 := hh.2.2.2
                omega
      · have hj : id0 ≠ i := fun hc => hi hc.symm
        have e1 : (fireStep s i now rnd).tasks id0 = s.tasks id0 :=
          fireStep_tasks_ne s i now rnd id0 hj hinv
        have e2 : (fireStep s i now rnd).runs id0 = s.runs id0 :=
          fireStep_runs_ne s i now rnd id0 hj
        constructor
        · intro u hu
          rw [e1] at hu
          rw [e2]
          exact ht.1 u hu
        · intro hu
          rw [e1] at hu
          rw [e2]
          exact ht.2 hu

/-- Processing any event sequence that never re-admits the tracked id
preserves both invariants. -/
theorem foldl_TrackInv (id0 n : Nat) (s : SchedState) (evs : List Event)
    (hinv : IdInv s) (ht : TrackInv id0 n s)
    (he : ∀ e ∈ evs, eventAddId e ≠ some id0) :
    IdInv (List.foldl step s evs) ∧ TrackInv id0 n (List.foldl step s evs) := by
  induction evs generalizing s with
  | nil => exact ⟨hinv, ht⟩
  | cons e r ih =>
      exact ih (step s e) (step_IdInv s e hinv)
        (step_TrackInv id0 n s e hinv ht (he e (List.mem_cons_self e r)))
        (fun e2 hm => he e2 (List.mem_cons_of_mem e hm))

/-- C6: a task admitted with a bounded counter n >= 1 is spawned at most n
times over any subsequent event sequence (fresh admissions never reuse its
id); after the n-th spawn it is absent from the table; while present its
counter sits in [0, n); and one further loop iteration never increases the
counter of the present entry. -/
theorem c6_bounded_fires (s0 : SchedState) (t : Task) (now0 : Instant)
    (rnd0 : Int) (n : Nat)
    (hinv : IdInv s0) (hn : 1 ≤ n) (ht : t.times = (n : Int))
    (hr : s0.runs t.id = 0)
    (evs : List Event) (he : ∀ e ∈ evs, eventAddId e ≠ some t.id) :
    (List.foldl step (addTask s0 t now0 rnd0) evs).runs t.id ≤ n ∧
    ((List.foldl step (addTask s0 t now0 rnd0) evs).runs t.id = n →
      (List.foldl step (addTask s0 t now0 rnd0) evs).tasks t.id = none) ∧
    (∀ u,
      (List.foldl step (addTask s0 t now0 rnd0) evs).tasks t.id = some u →
      0 ≤ u.times ∧ u.times < (n : Int)) ∧
    (∀ e u', eventAddId e ≠ some t.id →
      (step (List.foldl step (addTask s0 t now0 rnd0) evs) e).tasks t.id
        = some u' →
      ∃ u,
        (List.foldl step (addTask s0 t now0 rnd0) evs).tasks t.id = some u
        ∧ u'.times ≤ u.times) := by
  have hpos : 0 < t.times := by rw [ht]; omega
  have hadm : TrackInv t.id n (addTask s0 t now0 rnd0) := by
    have e2 : (addTask s0 t now0 rnd0).runs t.id = s0.runs t.id :=
      congrFun (addTask_runs s0 t now0 rnd0) t.id
    have htimes : (next t now0 rnd0).1.times = t.times - 1 := by
      rw [next_fst]
      unfold decTimes
      rw [if_pos hpos]
    constructor
    · intro u hu
      rw [addTask_tasks_self] at hu
      split at hu
      · cases hu
        refine ⟨?_, ?_, ?_, ?_⟩
        · show (next t now0 rnd0).1.id = t.id
          exact next_id t now0 rnd0
        · show 0 ≤ (next t now0 rnd0).1.times
          rw [htimes, ht]
          omega
        · show (next t now0 rnd0).1.times ≤ (n : Int) - 1
          rw [htimes, ht]
        · show ((addTask s0 t now0 rnd0).runs t.id : Int)
            = (n : Int) - 1 - (next t now0 rnd0).1.times
          rw [e2, hr, htimes, ht]
          omega
      · cases hu
    · intro _
      rw [e2, hr]
      omega
  have hinv1 : IdInv (addTask s0 t now0 rnd0) :=
    addTask_IdInv s0 t now0 rnd0 hinv
  obtain ⟨hinvF, htF⟩ := foldl_TrackInv t.id n _ evs hinv1 hadm he
  refine ⟨?_, ?_, ?_, ?_⟩
  · cases hcase : (List.foldl step (addTask s0 t now0 rnd0) evs).tasks t.id
    with
    | none => exact htF.2 hcase
    | some u =>
        have := htF.1 u hcase
        omega
  · intro hruns
    cases hcase : (List.foldl step (addTask s0 t now0 rnd0) evs).tasks t.id
    with
    | none => rfl
    | some u =>
        exfalso
        have := htF.1 u hcase
        omega
  · intro u hu
    have := htF.1 u hu
    exact ⟨this.2.1, by omega⟩
  · intro e u' hee hu'
    cases e with
    | add t2 now rnd =>
        have hne : t2.id ≠ t.id := fun hc => hee (by rw [← hc]; rfl)
        have hu2 : (addTask (List.foldl step (addTask s0 t now0 rnd0) evs)
            t2 now rnd).tasks t.id
            = some u' := hu'
        rw [addTask_tasks_ne _ t2 now rnd t.id (Ne.symm hne)] at hu2
        exact ⟨u', hu2, le_refl _⟩
    | del i =>
        have hu2 : (delTask (List.foldl step (addTask s0 t now0 rnd0) evs)
            i).tasks t.id = some u' := hu'
        rw [delTask_tasks] at hu2
        by_cases hi : t.id = i
        · rw [if_pos hi] at hu2
          cases hu2
        · rw [if_neg hi] at hu2
          exact ⟨u', hu2, le_refl _⟩
    | fire i now rnd =>
        have hu2 : (fireStep (List.foldl step (addTask s0 t now0 rnd0) evs)
            i now rnd).tasks t.id = some u' := hu'
        by_cases hi : t.id = i
        · subst hi
          cases hcase :
              (List.foldl step (addTask s0 t now0 rnd0) evs).tasks t.id with
          | none =>
              rw [fireStep_none _ t.id now rnd hcase, hcase] at hu2
              cases hu2
          | some u =>
              rw [fireStep_tasks_self _ t.id now rnd u hcase hinvF] at hu2
              split at hu2
              · cases hu2
                refine ⟨u, rfl, ?_⟩
                show (next u now rnd).1.times ≤ u.times
                exact next_times_le u now rnd
              · cases hu2
        · rw [fireStep_tasks_ne _ i now rnd t.id hi hinvF] at hu2
          exact ⟨u', hu2, le_refl _⟩

/-- Witness for C6: Times(2) task admitted into a fresh scheduler, one fire
processed. -/
theorem c6_bounded_fires_witness :
    (List.foldl step (addTask SchedNew boundedTask now0 0)
      [Event.fire 1 now0 0]).runs 1 ≤ 2 ∧
    (∀ u, (List.foldl step (addTask SchedNew boundedTask now0 0)
      [Event.fire 1 now0 0]).tasks 1 = some u →
      0 ≤ u.times ∧ u.times < (2 : Int)) := by
  have h := c6_bounded_fires SchedNew boundedTask now0 0 2
    (fun i u hu => nomatch hu) (by omega) rfl rfl
    [Event.fire 1 now0 0]
    (by
      intro e hm
      cases hm with
      | head => decide
      | tail b hm2 => cases hm2)
  exact ⟨h.1, h.2.2.1⟩

/-- An unbounded Once task is returned unchanged by next with delay 0 and
keep true. -/
theorem next_once_forever (T : Task) (now : Instant) (rnd : Int)
    (hv : T.variant = .once) (ht : T.times = -1) :
    next T now rnd = (T, 0, true) := by
  have hdec : decTimes T = T := by
    unfold decTimes
    rw [if_neg (by rw [ht]; decide)]
  have hvn : variantNext T now rnd = (0, true) := by
    simp only [variantNext, hv]
  unfold next
  rw [if_neg (by rw [ht]; decide), hdec]
  show (T, variantNext T now rnd) = (T, 0, true)
  rw [hvn]

/-- The fired table entry when next keeps the task (no id bookkeeping
needed on this path). -/
theorem fireStep_tasks_self_keep (s : SchedState) (id : Nat) (now : Instant)
    (rnd : Int) (u : Task) (h : s.tasks id = some u)
    (hk : (next u now rnd).2.2 = true) :
    (fireStep s id now rnd).tasks id
      = some { (next u now rnd).1 with
          timer := some (next u now rnd).2.1 } := by
  unfold fireStep
  split
  · rename_i hn
    rw [h] at hn
    cases hn
  · rename_i u2 h2
    rw [h] at h2
    cases h2
    split
    · rename_i t' d hk2
      simp only
      rw [if_pos trivial, hk2]
    · rename_i t' d hk2
      rw [hk2] at hk
      exact Bool.noConfusion hk

/-- Firing an unbounded Once task any number of times leaves it in the
table unchanged and adds one spawn per fire. -/
theorem fire_forever_loop (id0 : Nat) (now : Instant) (rnd : Int)
    (U : Task) (hv : U.variant = .once) (ht : U.times = -1)
    (hUt : U.timer = some 0) (k : Nat) :
    ∀ s : SchedState, s.tasks id0 = some U →
    (List.foldl step s (List.replicate k (Event.fire id0 now rnd))).tasks id0
      = some U ∧
    (List.foldl step s (List.replicate k (Event.fire id0 now rnd))).runs id0
      = s.runs id0 + k := by
  induction k with
  | zero =>
      intro s hs
      exact ⟨hs, rfl⟩
  | succ k ih =>
      intro s hs
      rw [List.replicate_succ]
      have hnext : next U now rnd = (U, 0, true) :=
        next_once_forever U now rnd hv ht
      have hkeep : (next U now rnd).2.2 = true := by rw [hnext]
      have h1 : (fireStep s id0 now rnd).tasks id0 = some U := by
        rw [fireStep_tasks_self_keep s id0 now rnd U hs hkeep, hnext]
        show some { U with timer := some 0 } = some U
        rw [← hUt]
      have h2 : (fireStep s id0 now rnd).runs id0 = s.runs id0 + 1 :=
        fireStep_runs_self s id0 now rnd U hs
      have ih2 := ih (fireStep s id0 now rnd) h1
      refine ⟨?_, ?_⟩
      · show (List.foldl step (fireStep s id0 now rnd)
            (List.replicate k (Event.fire id0 now rnd))).tasks id0 = some U
        exact ih2.1
      · show (List.foldl step (fireStep s id0 now rnd)
            (List.replicate k (Event.fire id0 now rnd))).runs id0
          = s.runs id0 + (k + 1)
        rw [ih2.2, h2]
        omega

/-- C10: NewTask with no builder calls has variant Once yet times -1, so
next always returns the task unchanged with delay 0 and keep true;
admitting such a task produces an unbounded immediate re-fire loop: after
any number k of fires it is still in the table and has been spawned k
times, instead of executing once. -/
theorem c10_default_refire (jb : Nat) :
    (NewTask jb).variant = .once ∧ (NewTask jb).times = -1 ∧
    (∀ (now : Instant) (rnd : Int),
      next (NewTask jb) now rnd = (NewTask jb, 0, true)) ∧
    (∀ (s0 : SchedState) (id0 : Nat) (now : Instant) (rnd : Int) (k : Nat),
      s0.runs id0 = 0 →
      (List.foldl step (addTask s0 { NewTask jb with id := id0 } now rnd)
        (List.replicate k (Event.fire id0 now rnd))).tasks id0
        = some { NewTask jb with id := id0, timer := some 0 } ∧
      (List.foldl step (addTask s0 { NewTask jb with id := id0 } now rnd)
        (List.replicate k (Event.fire id0 now rnd))).runs id0 = k) := by
  refine ⟨rfl, rfl,
    fun now rnd => next_once_forever (NewTask jb) now rnd rfl rfl, ?_⟩
  intro s0 id0 now rnd k hr
  have hT : next { NewTask jb with id := id0 } now rnd
      = ({ NewTask jb with id := id0 }, 0, true) :=
    next_once_forever _ now rnd rfl rfl
  have h1 : (addTask s0 { NewTask jb with id := id0 } now rnd).tasks id0
      = some { NewTask jb with id := id0, timer := some 0 } := by
    have h0 := addTask_tasks_self s0 { NewTask jb with id := id0 } now rnd
    rw [hT] at h0
    exact h0
  have hruns1 : (addTask s0 { NewTask jb with id := id0 } now rnd).runs id0
      = 0 := by
    rw [congrFun (addTask_runs s0 _ now rnd) id0]
    exact hr
  have hloop := fire_forever_loop id0 now rnd
    { NewTask jb with id := id0, timer := some 0 } rfl rfl rfl k
    (addTask s0 { NewTask jb with id := id0 } now rnd) h1
  refine ⟨hloop.1, ?_⟩
  rw [hloop.2, hruns1]
  omega

/-- Witness for C10: the default task admitted as id 1 survives two fires
with two spawns. -/
theorem c10_default_refire_witness :
    (List.foldl step (addTask SchedNew { NewTask 0 with id := 1 } now0 0)
      (List.replicate 2 (Event.fire 1 now0 0))).tasks 1
      = some { NewTask 0 with id := 1, timer := some 0 } ∧
    (List.foldl step (addTask SchedNew { NewTask 0 with id := 1 } now0 0)
      (List.replicate 2 (Event.fire 1 now0 0))).runs 1 = 2 :=
  (c10_default_refire 0).2.2.2 SchedNew 1 now0 0 2 rfl

end scheduler
